import Mathlib

/-!
Verification of the RDF knowledge-graph tooling in this repository.

Python strings are modelled as lists of characters (`PyStr`); Python
functions from the repository are translated into executable Lean
definitions keeping their names, and the stated properties are proved
about those definitions.
-/

/-- Python strings, modelled as lists of characters. -/
abbrev PyStr := List Char

/-- Model of Python `str.startswith(pat)`. -/
def pyStartsWith (s pat : PyStr) : Bool :=
  match s, pat with
  | _, [] => true
  | [], _ :: _ => false
  | c :: s1, p :: p1 => c = p && pyStartsWith s1 p1

/-- Model of Python `str.endswith(pat)`. -/
def pyEndsWith (s pat : PyStr) : Bool :=
  pyStartsWith s.reverse pat.reverse

/-- The expansion of the Turtle `a` shorthand, as written in
`convert_turtle_to_ntriples.py`. -/
def rdfTypeIri : PyStr :=
  "<http://www.w3.org/1999/02/22-rdf-syntax-ns#type>".toList

/-- Loop body of `expand_uri` from `convert_turtle_to_ntriples.py`:
`for prefix, namespace in prefixes.items(): if uri.startswith(prefix + ':'):
return f'<{namespace}{local_part}>'`.  The Python dict is modelled as an
association list in insertion order. -/
def expandUriLoop (uri : PyStr) : List (PyStr × PyStr) → PyStr
  | [] => uri
  | (p, ns) :: rest =>
    if pyStartsWith uri (p ++ [':']) then
      '<' :: (ns ++ uri.drop (p.length + 1) ++ ['>'])
    else
      expandUriLoop uri rest

/-- Embedding of `expand_uri(uri, prefixes)` from
`convert_turtle_to_ntriples.py` (lines 16-28). -/
def expand_uri (uri : PyStr) (prefixes : List (PyStr × PyStr)) : PyStr :=
  if pyStartsWith uri ['<'] && pyEndsWith uri ['>'] then uri
  else if uri = ['a'] then rdfTypeIri
  else expandUriLoop uri prefixes

/-- Character class of the regex `\w` used for prefix names in
`expand_prefixes` (ASCII reading). -/
def isWordChar (c : Char) : Bool :=
  c.isAlphanum || c = '_'

-- Basic facts about the prefix-check model.

theorem pyStartsWith_append (a b : PyStr) : pyStartsWith (a ++ b) a = true := by
  induction a with
  | nil => cases b <;> rfl
  | cons c a ih => simp [pyStartsWith, ih]

theorem pyStartsWith_iff (s pat : PyStr) :
    pyStartsWith s pat = true ↔ ∃ t, s = pat ++ t := by
  induction pat generalizing s with
  | nil => simp [pyStartsWith]
  | cons p ps ih =>
    cases s with
    | nil =>
      simp [pyStartsWith]
    | cons c s1 =>
      simp only [pyStartsWith, Bool.and_eq_true, decide_eq_true_eq, ih]
      constructor
      · rintro ⟨rfl, t, rfl⟩
        exact ⟨t, rfl⟩
      · rintro ⟨t, h⟩
        cases h
        exact ⟨rfl, t, rfl⟩

/-- Two distinct colon-free keys cannot both match as `key ++ ":"` at the
front of `p ++ ':' :: l`. -/
theorem key_no_clash (q p l : PyStr) (hqp : q ≠ p)
    (hq : ∀ c ∈ q, c ≠ ':') (hp : ∀ c ∈ p, c ≠ ':') :
    pyStartsWith (p ++ ':' :: l) (q ++ [':']) = false := by
  induction q generalizing p with
  | nil =>
    cases p with
    | nil => exact absurd rfl hqp
    | cons d p1 =>
      have hd : d ≠ ':' := hp d (by simp)
      simp [pyStartsWith, hd]
  | cons c q1 ih =>
    cases p with
    | nil =>
      have hc : c ≠ ':' := hq c (by simp)
      simp [pyStartsWith, Ne.symm hc]
    | cons d p1 =>
      by_cases hcd : d = c
      · subst hcd
        have hq1 : ∀ x ∈ q1, x ≠ ':' := fun x hx => hq x (by simp [hx])
        have hp1 : ∀ x ∈ p1, x ≠ ':' := fun x hx => hp x (by simp [hx])
        have hne : q1 ≠ p1 := by
          intro h; exact hqp (by rw [h])
        simpa [pyStartsWith] using ih p1 hne hq1 hp1
      · simp [pyStartsWith, hcd]

theorem isWordChar_ne_colon {c : Char} (h : isWordChar c = true) : c ≠ ':' := by
  intro hc; subst hc; simp [isWordChar] at h

theorem isWordChar_ne_lt {c : Char} (h : isWordChar c = true) : c ≠ '<' := by
  intro hc; subst hc; simp [isWordChar] at h

/-- C6: the Turtle `a` shorthand resolves to `rdf:type` under every prefix
mapping: `expand_uri` applied to the token `a` returns exactly
`<http://www.w3.org/1999/02/22-rdf-syntax-ns#type>`. -/
theorem expand_uri_a_is_rdf_type (prefixes : List (PyStr × PyStr)) :
    expand_uri "a".toList prefixes =
      "<http://www.w3.org/1999/02/22-rdf-syntax-ns#type>".toList := rfl

/-- C9: `expand_uri` is total and silently passes unresolvable names
through: when the input is not enclosed in angle brackets, is not the
token `a`, and no declared prefix matches it, the input is returned
unchanged (no error is signalled; the Lean embedding is a total
function, matching the exception-free Python code). -/
theorem expand_uri_passthrough (uri : PyStr) (prefixes : List (PyStr × PyStr))
    (hbr : (pyStartsWith uri ['<'] && pyEndsWith uri ['>']) = false)
    (ha : uri ≠ ['a'])
    (hp : ∀ pr ∈ prefixes, pyStartsWith uri (pr.1 ++ [':']) = false) :
    expand_uri uri prefixes = uri := by
  unfold expand_uri
  rw [hbr]
  simp only [Bool.false_eq_true, if_false, if_neg ha]
  induction prefixes with
  | nil => rfl
  | cons pr rest ih =>
    have h1 := hp pr (by simp)
    have h2 : ∀ x ∈ rest, pyStartsWith uri (x.1 ++ [':']) = false :=
      fun x hx => hp x (by simp [hx])
    cases pr with
    | mk p ns => simpa [expandUriLoop, h1] using ih h2

/-- Witness for C9 at a concrete unresolvable input. -/
theorem expand_uri_passthrough_witness :
    expand_uri "xyz:foo".toList
      [("av".toList, "http://zenya.com/ontology/av#".toList)] =
      "xyz:foo".toList :=
  expand_uri_passthrough _ _ (by decide) (by decide) (by decide)

/-- C7: prefix resolution is correct.  For a prefix table whose keys are
nonempty `\w+` names (as produced by the `@prefix` regex of
`expand_prefixes`) with no duplicate keys: (a) an input already enclosed
in angle brackets is returned unchanged, and (b) for every declared pair
`(p, ns)` and every local name `l`, expanding `p ++ ":" ++ l` yields
`"<" ++ ns ++ l ++ ">"`. -/
theorem expand_uri_resolves (prefixes : List (PyStr × PyStr))
    (hkeys : ∀ pr ∈ prefixes, pr.1 ≠ [] ∧ ∀ c ∈ pr.1, isWordChar c = true)
    (hnodup : (prefixes.map Prod.fst).Nodup) :
    (∀ uri, pyStartsWith uri ['<'] = true → pyEndsWith uri ['>'] = true →
      expand_uri uri prefixes = uri)
    ∧ (∀ p ns l, (p, ns) ∈ prefixes →
      expand_uri (p ++ ':' :: l) prefixes = '<' :: (ns ++ l ++ ['>'])) := by
  constructor
  · intro uri hs he
    unfold expand_uri
    rw [hs, he]
    rfl
  · intro p ns l hmem
    have hkey := hkeys (p, ns) hmem
    have hpne : p ≠ [] := hkey.1
    have hpw : ∀ c ∈ p, isWordChar c = true := hkey.2
    -- the bracket branch does not fire: the first character of p is a word
    -- character, hence not '<'
    have hbr : pyStartsWith (p ++ ':' :: l) ['<'] = false := by
      cases p with
      | nil => exact absurd rfl hpne
      | cons c p1 =>
        have : c ≠ '<' := isWordChar_ne_lt (hpw c (by simp))
        simp [pyStartsWith, this]
    -- the 'a' branch does not fire: the input has length ≥ 2
    have ha : p ++ ':' :: l ≠ ['a'] := by
      cases p with
      | nil => exact absurd rfl hpne
      | cons c p1 =>
        intro h
        simp at h
    unfold expand_uri
    rw [hbr]
    simp only [Bool.false_and, Bool.false_eq_true, if_false, if_neg ha]
    -- walk the table: earlier distinct keys cannot match
    induction prefixes with
    | nil => simp at hmem
    | cons pr rest ih =>
      rcases pr with ⟨q, m⟩
      rcases List.mem_cons.mp hmem with heq | hrest
      · rw [Prod.mk.injEq] at heq
        obtain ⟨rfl, rfl⟩ := heq
        have hmatch : pyStartsWith (p ++ ':' :: l) (p ++ [':']) = true := by
          have : p ++ ':' :: l = (p ++ [':']) ++ l := by simp
          rw [this]
          exact pyStartsWith_append _ _
        have hdrop : (p ++ ':' :: l).drop (p.length + 1) = l := by
          have : p ++ ':' :: l = (p ++ [':']) ++ l := by simp
          rw [this]
          have hlen : p.length + 1 = (p ++ [':']).length := by simp
          rw [hlen, List.drop_left]
        simp [expandUriLoop, hmatch, hdrop]
      · have hq : q ≠ [] ∧ ∀ c ∈ q, isWordChar c = true :=
          hkeys (q, m) (by simp)
        have hqp : q ≠ p := by
          intro h; subst h
          have : q ∈ rest.map Prod.fst := List.mem_map.mpr ⟨(q, ns), hrest, rfl⟩
          exact (List.nodup_cons.mp hnodup).1 this
        have hnomatch : pyStartsWith (p ++ ':' :: l) (q ++ [':']) = false :=
          key_no_clash q p l hqp
            (fun c hc => isWordChar_ne_colon (hq.2 c hc))
            (fun c hc => isWordChar_ne_colon (hpw c hc))
        have ih2 := ih (fun x hx => hkeys x (by simp [hx]))
          ((List.nodup_cons.mp hnodup).2) hrest
        simpa [expandUriLoop, hnomatch] using ih2

/-- Model of Python `str.lower()` (character-wise; exact on the ASCII
data used by the script). -/
def pyLower (s : PyStr) : PyStr := s.map Char.toLower

/-- Model of the Python substring test `needle in hay`. -/
def pyIn (needle hay : PyStr) : Bool :=
  match hay with
  | [] => needle.isEmpty
  | _ :: rest => pyStartsWith hay needle || pyIn needle rest

/-- The `mapping` dict of `map_play_type` in `euroleague-to-ttl.py`
(lines 185-211), as an association list in insertion order. -/
def playTypeMapping : List (PyStr × PyStr) :=
  [("2pt".toList, "Shot".toList),
   ("3pt".toList, "Shot".toList),
   ("ft".toList, "Shot".toList),
   ("fta".toList, "Shot".toList),
   ("ftm".toList, "Shot".toList),
   ("two pointer".toList, "Shot".toList),
   ("three pointer".toList, "Shot".toList),
   ("free throw".toList, "Shot".toList),
   ("as".toList, "Assist".toList),
   ("ast".toList, "Assist".toList),
   ("assist".toList, "Assist".toList),
   ("reb".toList, "Rebound".toList),
   ("dreb".toList, "Rebound".toList),
   ("oreb".toList, "Rebound".toList),
   ("rebound".toList, "Rebound".toList),
   ("def rebound".toList, "Rebound".toList),
   ("off rebound".toList, "Rebound".toList),
   ("to".toList, "Turnover".toList),
   ("turnover".toList, "Turnover".toList),
   ("pf".toList, "Foul".toList),
   ("foul".toList, "Foul".toList),
   ("blk".toList, "Block".toList),
   ("block".toList, "Block".toList),
   ("stl".toList, "Steal".toList),
   ("steal".toList, "Steal".toList)]

/-- First keyword of the mapping (in insertion order) contained in `s`,
modelling the `for key, value in mapping.items(): if key in s: return value`
loops of `map_play_type`. -/
def firstMatch (s : PyStr) : List (PyStr × PyStr) → Option PyStr
  | [] => none
  | (k, v) :: rest => if pyIn k s then some v else firstMatch s rest

/-- Embedding of `map_play_type(play_type, description)` from
`euroleague-to-ttl.py` (lines 179-224): check `play_type.lower()` first,
then `description.lower()` as a fallback, else return `'Event'`. -/
def map_play_type (pt desc : PyStr) : PyStr :=
  match firstMatch (pyLower pt) playTypeMapping with
  | some v => v
  | none =>
    match firstMatch (pyLower desc) playTypeMapping with
    | some v => v
    | none => "Event".toList

/-- The closed codomain claimed for `map_play_type`. -/
def playTypeClasses : List PyStr :=
  ["Shot".toList, "Assist".toList, "Rebound".toList, "Turnover".toList,
   "Foul".toList, "Block".toList, "Steal".toList, "Event".toList]

theorem firstMatch_mem {s v : PyStr} :
    ∀ {m : List (PyStr × PyStr)}, firstMatch s m = some v →
      v ∈ m.map Prod.snd := by
  intro m
  induction m with
  | nil => intro h; simp [firstMatch] at h
  | cons kv rest ih =>
    rcases kv with ⟨k, w⟩
    intro h
    by_cases hk : pyIn k s = true
    · simp [firstMatch, hk] at h
      simp [h]
    · simp [firstMatch, hk] at h
      simp [ih h]


/-- RDF node of the `gonnect` SDK as used in
`multi_format_example.py`: IRIs and literals (string / decimal /
boolean constructors). -/
inductive Node where
  | iri (value : PyStr)
  | literalString (value : PyStr)
  | literalDecimal (value : PyStr)
  | literalBoolean (value : Bool)
deriving DecidableEq

/-- The `literal_value()` accessor used by the custom functions.  An IRI
node has no literal value; in Python this raises `AttributeError`, which
the custom functions catch, so it is modelled as `none`. -/
def literalValue : Node → Option PyStr
  | .iri _ => none
  | .literalString v => some v
  | .literalDecimal v => some v
  | .literalBoolean b => some (if b then "true".toList else "false".toList)

/-- Python float values, with IEEE-754 finite values idealized as exact
decimals `mantissa / 10 ^ exp` (every value reached by the repository
examples is decimal-exact, where the idealization agrees with IEEE
arithmetic).  Finite values are kept normalized: the mantissa has no
trailing zero while `exp > 0`. -/
inductive PyFloat where
  | finite (mantissa : ℤ) (exp : ℕ)
  | inf (neg : Bool)
  | nan
deriving DecidableEq

/-- The rational value of a finite Python float. -/
def pyFloatVal : PyFloat → Option ℚ
  | .finite m e => some ((m : ℚ) / (10 : ℚ) ^ e)
  | _ => none

/-- Strip factors of ten from the mantissa into the exponent. -/
def stripTens (m : ℤ) : ℕ → ℤ × ℕ
  | 0 => (m, 0)
  | e + 1 => if m % 10 = 0 ∧ m ≠ 0 then stripTens (m / 10) e else (m, e + 1)

/-- Normalized finite float from a decimal mantissa/exponent pair. -/
def normFin (m : ℤ) (e : ℕ) : PyFloat :=
  if m = 0 then .finite 0 0
  else .finite (stripTens m e).1 (stripTens m e).2

/-- Python whitespace, as stripped by `str.strip()` / `float()` / `int()`. -/
def isPySpace (c : Char) : Bool :=
  c = ' ' || c = '\t' || c = '\n' || c = '\r' || c = '\x0b' || c = '\x0c'

/-- Model of Python `str.strip()` (no arguments: strips whitespace). -/
def pyStrip (s : PyStr) : PyStr :=
  ((s.dropWhile isPySpace).reverse.dropWhile isPySpace).reverse

/-- Optional leading `+`/`-` sign. -/
def parseSign : PyStr → Int × PyStr
  | '+' :: r => (1, r)
  | '-' :: r => (-1, r)
  | r => (1, r)

/-- Numeric value of a string of decimal digits. -/
def digitsVal (ds : PyStr) : ℕ :=
  ds.foldl (fun n c => 10 * n + (c.toNat - '0'.toNat)) 0

/-- Model of Python `float(s)`: optional surrounding whitespace and sign,
then `inf`/`infinity`/`nan` (case-insensitive) or decimal digits with an
optional point and an optional exponent; anything else raises
`ValueError`, modelled as `none`.  Finite values are exact decimals
(no IEEE rounding; digit-group underscores are not modelled). -/
def parsePyFloat (s0 : PyStr) : Option PyFloat :=
  let s1 := pyStrip s0
  let sg := (parseSign s1).1
  let s2 := (parseSign s1).2
  let low := pyLower s2
  if low = "inf".toList ∨ low = "infinity".toList then some (.inf (sg < 0))
  else if low = "nan".toList then some .nan
  else
    let d := s2.takeWhile Char.isDigit
    let s3 := s2.drop d.length
    let f := match s3 with
      | '.' :: r => r.takeWhile Char.isDigit
      | _ => []
    let s4 := match s3 with
      | '.' :: r => r.drop (r.takeWhile Char.isDigit).length
      | _ => s3
    if d = [] ∧ f = [] then none
    else
      let m0 : ℤ := sg * (digitsVal (d ++ f) : ℤ)
      match s4 with
      | [] => some (normFin m0 f.length)
      | e :: r =>
        if e = 'e' ∨ e = 'E' then
          let esg := (parseSign r).1
          let r2 := (parseSign r).2
          let ed := r2.takeWhile Char.isDigit
          if ed = [] ∨ r2.drop ed.length ≠ [] then none
          else
            let t : ℤ := esg * (digitsVal ed : ℤ) - (f.length : ℤ)
            if 0 ≤ t then some (normFin (m0 * 10 ^ t.toNat) 0)
            else some (normFin m0 (-t).toNat)
        else none

/-- Model of Python `int(s)`: optional whitespace and sign, then decimal
digits only (no point, no exponent; digit-group underscores are not
modelled); otherwise `ValueError`, modelled as `none`. -/
def parsePyInt (s0 : PyStr) : Option ℤ :=
  let s1 := pyStrip s0
  let sg := (parseSign s1).1
  let s2 := (parseSign s1).2
  if s2 ≠ [] ∧ s2.all Char.isDigit then some (sg * (digitsVal s2 : ℤ))
  else none

/-- Model of Python `str()` on a float, in the decimal-exact regime used
by the examples: an integral value prints as `"<digits>.0"`, other
finite values print their exact decimal expansion without trailing
zeros; `inf`/`nan` print as in Python.  (Scientific notation for very
small or very large magnitudes is outside the modelled regime.) -/
def pyFloatStr : PyFloat → PyStr
  | .nan => "nan".toList
  | .inf neg => if neg then "-inf".toList else "inf".toList
  | .finite m k =>
    let sgn : PyStr := if m < 0 then ['-'] else []
    let n : ℕ := m.natAbs
    if k = 0 then sgn ++ Nat.toDigits 10 n ++ ".0".toList
    else
      let ds0 := Nat.toDigits 10 n
      let ds := if ds0.length ≤ k
        then List.replicate (k + 1 - ds0.length) '0' ++ ds0
        else ds0
      sgn ++ ds.take (ds.length - k) ++ '.' :: ds.drop (ds.length - k)

/-- Doubling a Python float (`value * 2.0`), renormalizing the decimal
representation. -/
def pyFloatMul2 : PyFloat → PyFloat
  | .finite m e => normFin (2 * m) e
  | .inf n => .inf n
  | .nan => .nan

/-- Embedding of `double_function(args)` from `multi_format_example.py`
(lines 88-100): `None` unless exactly one argument whose literal value
parses as a float; otherwise twice the value as a decimal literal. -/
def double_function (args : List Node) : Option Node :=
  match args with
  | [a] =>
    match literalValue a with
    | none => none
    | some s =>
      match parsePyFloat s with
      | none => none
      | some v => some (Node.literalDecimal (pyFloatStr (pyFloatMul2 v)))
  | _ => none

/-- Embedding of `is_even_function(args)` from `multi_format_example.py`
(lines 123-135): `None` unless exactly one argument whose literal value
parses as an int; otherwise a boolean literal telling whether it is even. -/
def is_even_function (args : List Node) : Option Node :=
  match args with
  | [a] =>
    match literalValue a with
    | none => none
    | some s =>
      match parsePyInt s with
      | none => none
      | some n => some (Node.literalBoolean (n % 2 = 0))
  | _ => none

set_option maxRecDepth 40000 in
/-- C4: the registered `ex:double` evaluator composes: the nested
invocation `ex:double(ex:double(5))` yields the decimal literal
`"20.0"`, whose numeric value is 20. -/
theorem double_function_composes :
    (double_function [Node.literalDecimal "5".toList]).bind
        (fun n => double_function [n]) =
      some (Node.literalDecimal "20.0".toList)
    ∧ (parsePyFloat "20.0".toList).bind pyFloatVal = some 20 := by
  constructor
  · decide
  · have h : parsePyFloat "20.0".toList = some (PyFloat.finite 20 0) := by
      decide
    rw [h]
    simp [pyFloatVal]

/-- C5: custom function invocation never raises: the evaluators are total
functions into `Option Node` (every Python exception path is caught and
returns `None`), and they return `none` on a wrong argument count, on an
argument without a literal value (Python `AttributeError`), and on a
literal value that does not parse as a number (Python `ValueError`). -/
theorem custom_functions_return_none (args : List Node) :
    (args.length ≠ 1 →
      double_function args = none ∧ is_even_function args = none)
    ∧ (∀ a, args = [a] → literalValue a = none →
      double_function args = none ∧ is_even_function args = none)
    ∧ (∀ a s, args = [a] → literalValue a = some s →
      parsePyFloat s = none → double_function args = none)
    ∧ (∀ a s, args = [a] → literalValue a = some s →
      parsePyInt s = none → is_even_function args = none) := by
  refine ⟨?_, ?_, ?_, ?_⟩
  · intro h
    match args with
    | [] => exact ⟨rfl, rfl⟩
    | [a] => simp at h
    | a :: b :: t => exact ⟨rfl, rfl⟩
  · intro a ha hlv
    subst ha
    constructor <;> simp [double_function, is_even_function, hlv]
  · intro a s ha hlv hp
    subst ha
    simp [double_function, hlv, hp]
  · intro a s ha hlv hp
    subst ha
    simp [is_even_function, hlv, hp]

/-- Witness for C5: wrong argument count and an unparsable literal both
yield `none` at concrete inputs. -/
theorem custom_functions_return_none_witness :
    (double_function [] = none ∧ is_even_function [] = none)
    ∧ double_function [Node.literalString "hello".toList] = none :=
  ⟨(custom_functions_return_none []).1 (by decide),
   (custom_functions_return_none [Node.literalString "hello".toList]).2.2.1
     _ _ rfl rfl (by decide)⟩

theorem map_play_type_eq_of_pt {pt desc v : PyStr}
    (h : firstMatch (pyLower pt) playTypeMapping = some v) :
    map_play_type pt desc = v := by
  unfold map_play_type
  rw [h]

theorem map_play_type_eq_of_desc {pt desc v : PyStr}
    (h1 : firstMatch (pyLower pt) playTypeMapping = none)
    (h2 : firstMatch (pyLower desc) playTypeMapping = some v) :
    map_play_type pt desc = v := by
  unfold map_play_type
  rw [h1, h2]

theorem map_play_type_eq_event {pt desc : PyStr}
    (h1 : firstMatch (pyLower pt) playTypeMapping = none)
    (h2 : firstMatch (pyLower desc) playTypeMapping = none) :
    map_play_type pt desc = "Event".toList := by
  unfold map_play_type
  rw [h1, h2]

/-- C10: `map_play_type` is total with the closed codomain
`{Shot, Assist, Rebound, Turnover, Foul, Block, Steal, Event}`; a keyword
match in `play_type` always takes precedence (the result is then the
first such match, independent of `description`); and `Event` is returned
iff no keyword of the mapping occurs in either lowered string. -/
theorem map_play_type_spec (pt desc : PyStr) :
    map_play_type pt desc ∈ playTypeClasses
    ∧ (∀ v, firstMatch (pyLower pt) playTypeMapping = some v →
        map_play_type pt desc = v)
    ∧ (map_play_type pt desc = "Event".toList ↔
        firstMatch (pyLower pt) playTypeMapping = none ∧
        firstMatch (pyLower desc) playTypeMapping = none) := by
  have hvals : ∀ v ∈ playTypeMapping.map Prod.snd,
      v ∈ playTypeClasses ∧ v ≠ "Event".toList := by decide
  have hEvent : "Event".toList ∈ playTypeClasses := by decide
  refine ⟨?_, fun v hv => map_play_type_eq_of_pt hv, ?_⟩
  · rcases h1 : firstMatch (pyLower pt) playTypeMapping with _ | v1
    · rcases h2 : firstMatch (pyLower desc) playTypeMapping with _ | v2
      · rw [map_play_type_eq_event h1 h2]
        exact hEvent
      · rw [map_play_type_eq_of_desc h1 h2]
        exact (hvals v2 (firstMatch_mem h2)).1
    · rw [map_play_type_eq_of_pt h1]
      exact (hvals v1 (firstMatch_mem h1)).1
  · constructor
    · intro heq
      rcases h1 : firstMatch (pyLower pt) playTypeMapping with _ | v1
      · rcases h2 : firstMatch (pyLower desc) playTypeMapping with _ | v2
        · exact ⟨rfl, rfl⟩
        · rw [map_play_type_eq_of_desc h1 h2] at heq
          exact absurd heq (hvals v2 (firstMatch_mem h2)).2
      · rw [map_play_type_eq_of_pt h1] at heq
        exact absurd heq (hvals v1 (firstMatch_mem h1)).2
    · intro hc
      exact map_play_type_eq_event hc.1 hc.2


/-- Witness for C10: a play type containing `2pt` is classified `Shot`
regardless of the description. -/
theorem map_play_type_spec_witness :
    map_play_type "2PT Made".toList "Steal (1)".toList = "Shot".toList :=
  (map_play_type_spec "2PT Made".toList "Steal (1)".toList).2.1
    "Shot".toList (by decide)

/-- Modelled from the spec: the core engine (term model, quad store,
codecs, SPARQL executor of spec sections 3-4) is not among the repository
sources here — only its Python callers and tests are — so RDF terms are
modelled from spec section 3: IRIs, blank nodes, and literals with
mutually optional datatype/language tag. -/
inductive Term where
  | iri (value : PyStr)
  | blank (id : ℕ)
  | literal (lex : PyStr) (datatype : Option PyStr) (lang : Option PyStr)
deriving DecidableEq

/-- Modelled from the spec: a quad (spec section 3); `graph = none` is the
default-graph sentinel. -/
structure Quad where
  subj : Term
  pred : Term
  obj : Term
  graph : Option Term
deriving DecidableEq

/-- Modelled from the spec: inserting one quad into the store (spec
sections 3 and 4.2): set semantics, duplicate insert is a no-op. -/
def insertQuad (st : List Quad) (q : Quad) : List Quad :=
  if q ∈ st then st else st ++ [q]

/-- Modelled from the spec: batched insert (spec section 4.2). -/
def insert_batch (st : List Quad) (qs : List Quad) : List Quad :=
  qs.foldl insertQuad st

/-- Modelled from the spec: `size()` of the store. -/
def storeSize (st : List Quad) : ℕ := st.length

/-- Modelled from the spec: `ParseError{line, column, message}` (spec
section 7). -/
structure ParseError where
  line : ℕ
  column : ℕ
  message : PyStr
deriving DecidableEq

/-- Whitespace tokenizer (Python `str.split()` without arguments). -/
def pyWordsAux : PyStr → PyStr → List PyStr
  | [], acc => if acc = [] then [] else [acc.reverse]
  | c :: r, acc =>
    if isPySpace c then
      if acc = [] then pyWordsAux r [] else acc.reverse :: pyWordsAux r []
    else pyWordsAux r (c :: acc)

/-- Split a string into whitespace-separated words. -/
def pyWords (s : PyStr) : List PyStr := pyWordsAux s []

/-- Model of Python `str.split(sep)` for a one-character separator. -/
def pySplit (sep : Char) : PyStr → List PyStr
  | [] => [[]]
  | c :: rest =>
    if c = sep then [] :: pySplit sep rest
    else
      match pySplit sep rest with
      | [] => [[c]]
      | s :: ss => (c :: s) :: ss

/-- A token as an RDF term: `<...>` is an IRI, `"...` a literal (the
model keeps the whole token as the lexical form). -/
def termOfToken (t : PyStr) : Option Term :=
  if pyStartsWith t ['<'] && pyEndsWith t ['>'] then some (.iri t)
  else if pyStartsWith t ['"'] then some (.literal t none none)
  else none

/-- Modelled from the spec: one line of the line-oriented RDF subset
accepted by the modelled codec (spec section 4.3) — blank lines and
`#` comments yield nothing, otherwise `subject predicate object .`;
anything else is a `ParseError` carrying the line number, a column and a
message. -/
def parseQuadLine (lineNo : ℕ) (line : PyStr) : Except ParseError (Option Quad) :=
  match pyWords line with
  | [] => .ok none
  | t :: rest =>
    if pyStartsWith t ['#'] then .ok none
    else
      match t :: rest with
      | [s, p, o, d] =>
        if d ≠ ['.'] then
          .error ⟨lineNo, 4, "expected terminating period".toList⟩
        else
          match termOfToken s, termOfToken p, termOfToken o with
          | some ts, some tp, some tobj => .ok (some ⟨ts, tp, tobj, none⟩)
          | _, _, _ => .error ⟨lineNo, 1, "malformed term".toList⟩
      | _ => .error ⟨lineNo, 1, "expected subject predicate object period".toList⟩

/-- Modelled from the spec: parse all lines, failing at the first
malformed one; quads accumulated before the failure are discarded by the
`Except` result (all-or-nothing per call, spec sections 4.3 and 7). -/
def parseLinesAux : ℕ → List PyStr → Except ParseError (List Quad)
  | _, [] => .ok []
  | n, l :: rest =>
    match parseQuadLine n l with
    | .error e => .error e
    | .ok none => parseLinesAux (n + 1) rest
    | .ok (some q) =>
      match parseLinesAux (n + 1) rest with
      | .error e => .error e
      | .ok qs => .ok (q :: qs)

/-- Modelled from the spec: parse a whole text, numbering lines from 1. -/
def parseTurtleText (text : PyStr) : Except ParseError (List Quad) :=
  parseLinesAux 1 (pySplit '\n' text)

/-- Modelled from the spec: `load` (spec section 6) — parse, then commit
the whole batch; a parse error commits nothing. -/
def load (st : List Quad) (text : PyStr) : Except ParseError (List Quad) :=
  match parseTurtleText text with
  | .ok qs => .ok (insert_batch st qs)
  | .error e => .error e

/-- The store a caller holds after a `load` call: the new store on
success, the old store on failure. -/
def loadStore (st : List Quad) (text : PyStr) : List Quad :=
  match load st text with
  | .ok st2 => st2
  | .error _ => st

theorem mem_insertQuad {st : List Quad} {x : Quad} (q : Quad) (h : x ∈ st) :
    x ∈ insertQuad st q := by
  unfold insertQuad
  by_cases hq : q ∈ st <;> simp [hq, h]

theorem self_mem_insertQuad (st : List Quad) (q : Quad) :
    q ∈ insertQuad st q := by
  unfold insertQuad
  by_cases hq : q ∈ st <;> simp [hq]

theorem mem_insert_batch {st : List Quad} {x : Quad} (qs : List Quad)
    (h : x ∈ st) : x ∈ insert_batch st qs := by
  induction qs generalizing st with
  | nil => exact h
  | cons q r ih => exact ih (mem_insertQuad q h)

theorem batch_subset_insert_batch (st : List Quad) (qs : List Quad) :
    ∀ x ∈ qs, x ∈ insert_batch st qs := by
  induction qs generalizing st with
  | nil => intro x hx; simp at hx
  | cons q r ih =>
    intro x hx
    rcases List.mem_cons.mp hx with rfl | hr
    · exact mem_insert_batch r (self_mem_insertQuad st x)
    · exact ih (insertQuad st q) x hr

theorem insert_batch_eq_of_subset {st : List Quad} {qs : List Quad}
    (h : ∀ x ∈ qs, x ∈ st) : insert_batch st qs = st := by
  induction qs with
  | nil => rfl
  | cons q r ih =>
    have hq : insertQuad st q = st := by
      unfold insertQuad
      simp [h q (by simp)]
    show insert_batch (insertQuad st q) r = st
    rw [hq]
    exact ih fun x hx => h x (by simp [hx])

/-- C1 (spec-modelled): insert has set semantics and is idempotent —
inserting a present quad is a no-op, inserting an absent quad makes it
contained and grows `size()` by exactly one, and loading the same text
twice leaves the size of the store unchanged compared to loading it
once. -/
theorem insert_set_semantics (st : List Quad) (q : Quad) (text : PyStr) :
    (q ∈ st → insertQuad st q = st)
    ∧ (q ∉ st → q ∈ insertQuad st q ∧
        storeSize (insertQuad st q) = storeSize st + 1)
    ∧ storeSize (loadStore (loadStore st text) text) =
        storeSize (loadStore st text) := by
  refine ⟨?_, ?_, ?_⟩
  · intro h
    unfold insertQuad
    simp [h]
  · intro h
    unfold insertQuad storeSize
    simp [h]
  · rcases hp : parseTurtleText text with e | qs
    · unfold loadStore load
      rw [hp]
    · have h1 : loadStore st text = insert_batch st qs := by
        unfold loadStore load
        rw [hp]
      have h2 : loadStore (insert_batch st qs) text =
          insert_batch (insert_batch st qs) qs := by
        unfold loadStore load
        rw [hp]
      rw [h1, h2, insert_batch_eq_of_subset (batch_subset_insert_batch st qs)]

/-- Witness for C1: a fresh quad is inserted once and a duplicate insert
is a no-op, at concrete inputs. -/
theorem insert_set_semantics_witness :
    (Quad.mk (.iri "<http://e/a>".toList) (.iri "<http://e/p>".toList)
        (.iri "<http://e/b>".toList) none ∈
      insertQuad [] (Quad.mk (.iri "<http://e/a>".toList)
        (.iri "<http://e/p>".toList) (.iri "<http://e/b>".toList) none)
      ∧ storeSize (insertQuad [] (Quad.mk (.iri "<http://e/a>".toList)
        (.iri "<http://e/p>".toList) (.iri "<http://e/b>".toList) none)) =
        storeSize [] + 1)
    ∧ insertQuad [Quad.mk (.iri "<http://e/a>".toList)
        (.iri "<http://e/p>".toList) (.iri "<http://e/b>".toList) none]
        (Quad.mk (.iri "<http://e/a>".toList) (.iri "<http://e/p>".toList)
          (.iri "<http://e/b>".toList) none) =
      [Quad.mk (.iri "<http://e/a>".toList) (.iri "<http://e/p>".toList)
        (.iri "<http://e/b>".toList) none] :=
  ⟨(insert_set_semantics [] _ []).2.1 (by decide),
   (insert_set_semantics [_] _ []).1 (by decide)⟩

/-- C2 (spec-modelled): parsing is all-or-nothing — a load call fails
with a `ParseError` (carrying line, column and message) exactly when the
text is malformed, and on failure the caller's store is exactly the store
from before the call: no partially parsed quads remain. -/
theorem load_all_or_nothing (st : List Quad) (text : PyStr) (e : ParseError) :
    (load st text = .error e ↔ parseTurtleText text = .error e)
    ∧ (load st text = .error e → loadStore st text = st) := by
  constructor
  · unfold load
    rcases hp : parseTurtleText text with e2 | qs <;> simp
  · intro h
    unfold loadStore
    rw [h]

/-- Witness for C2: a malformed text leaves a concrete store untouched. -/
theorem load_all_or_nothing_witness :
    loadStore [] "this is not turtle".toList = [] :=
  (load_all_or_nothing [] "this is not turtle".toList
      ⟨1, 4, "expected terminating period".toList⟩).2 rfl

/-- A slot of a triple pattern: a SPARQL variable or a concrete term. -/
inductive PatTerm where
  | var (name : PyStr)
  | term (t : Term)

/-- Look a variable up in a binding. -/
def lookupVar (b : List (PyStr × Term)) (x : PyStr) : Option Term :=
  match b with
  | [] => none
  | (y, t) :: r => if y = x then some t else lookupVar r x

/-- Bind a variable, failing on an incompatible existing binding. -/
def bindVar (x : PyStr) (t : Term) (b : List (PyStr × Term)) :
    Option (List (PyStr × Term)) :=
  match lookupVar b x with
  | none => some (b ++ [(x, t)])
  | some t2 => if t2 = t then some b else none

/-- Match one pattern slot against one term under a partial binding. -/
def matchPat : PatTerm → Term → List (PyStr × Term) →
    Option (List (PyStr × Term))
  | .var x, t, b => bindVar x t b
  | .term t0, t, b => if t0 = t then some b else none

/-- Modelled from the spec: evaluation of a single-triple-pattern basic
graph pattern (spec sections 4.4 and 8) — one candidate binding per quad
of the store, kept when all three slots match. -/
def evalTriplePattern (st : List Quad) (ps pp po : PatTerm) :
    List (List (PyStr × Term)) :=
  st.filterMap fun q =>
    (matchPat ps q.subj []).bind fun b1 =>
      (matchPat pp q.pred b1).bind fun b2 => matchPat po q.obj b2

/-- Modelled from the spec: the result rows of
`SELECT ?s ?p ?o WHERE {?s ?p ?o}`. -/
def selectAllBindings (st : List Quad) : List (List (PyStr × Term)) :=
  evalTriplePattern st (.var "s".toList) (.var "p".toList) (.var "o".toList)

/-- C3 (spec-modelled): `SELECT ?s ?p ?o WHERE {?s ?p ?o}` on a store
holding N quads returns exactly N bindings; in particular it returns no
binding on the empty store. -/
theorem select_all_count (st : List Quad) :
    (selectAllBindings st).length = storeSize st
    ∧ selectAllBindings ([] : List Quad) = [] := by
  constructor
  · have hf : ∀ q : Quad,
        ((matchPat (.var "s".toList) q.subj []).bind fun b1 =>
          (matchPat (.var "p".toList) q.pred b1).bind fun b2 =>
            matchPat (.var "o".toList) q.obj b2) =
        some [("s".toList, q.subj), ("p".toList, q.pred),
              ("o".toList, q.obj)] := fun q => rfl
    unfold selectAllBindings evalTriplePattern storeSize
    induction st with
    | nil => rfl
    | cons q r ih =>
      rw [List.filterMap_cons, hf q, List.length_cons, ih]
      rfl
  · rfl

/-- Match a literal pattern at the front of a string, returning the
remainder. -/
def dropLit : PyStr → PyStr → Option PyStr
  | [], s => some s
  | _ :: _, [] => none
  | p :: ps, c :: cs => if c = p then dropLit ps cs else none

/-- Match of the regex `@prefix\s+(\w+):\s+<([^>]+)>\s*\.` at the current
position (as used by `re.finditer` in `expand_prefixes` of
`convert_turtle_to_ntriples.py`), returning the two captures and the
remainder after the match. -/
def matchPrefixDeclAt (s : PyStr) : Option ((PyStr × PyStr) × PyStr) :=
  match dropLit "@prefix".toList s with
  | none => none
  | some r1 =>
    let ws1 := r1.takeWhile isPySpace
    if ws1 = [] then none
    else
      let r2 := r1.drop ws1.length
      let name := r2.takeWhile isWordChar
      if name = [] then none
      else
        match r2.drop name.length with
        | ':' :: r3 =>
          let ws2 := r3.takeWhile isPySpace
          if ws2 = [] then none
          else
            let r4 := r3.drop ws2.length
            match r4 with
            | '<' :: r5 =>
              let iri := r5.takeWhile fun c => c ≠ '>'
              if iri = [] then none
              else
                match r5.drop iri.length with
                | '>' :: r6 =>
                  match r6.dropWhile isPySpace with
                  | '.' :: r8 => some ((name, iri), r8)
                  | _ => none
                | _ => none
            | _ => none
        | _ => none

/-- Python dict assignment `prefixes[k] = v`: overwrite in place or
append. -/
def pyDictInsert (m : List (PyStr × PyStr)) (k v : PyStr) :
    List (PyStr × PyStr) :=
  if m.any fun kv => kv.1 == k then
    m.map fun kv => if kv.1 = k then (k, v) else kv
  else m ++ [(k, v)]

/-- Left-to-right non-overlapping scan of `re.finditer`, building the
prefix dict (fuel-indexed; the fuel is instantiated with the text
length, which suffices since every step consumes at least one
character). -/
def findPrefixDecls : ℕ → PyStr → List (PyStr × PyStr) → List (PyStr × PyStr)
  | 0, _, m => m
  | _, [], m => m
  | fuel + 1, c :: rest, m =>
    match matchPrefixDeclAt (c :: rest) with
    | some (kv, after) => findPrefixDecls fuel after (pyDictInsert m kv.1 kv.2)
    | none => findPrefixDecls fuel rest m

/-- Embedding of `expand_prefixes(text)` from
`convert_turtle_to_ntriples.py` (lines 9-14). -/
def expand_prefixes (text : PyStr) : List (PyStr × PyStr) :=
  findPrefixDecls text.length text []

/-- Match of the regex `@prefix[^\n]+\n` at the current position (the
`re.sub` pattern removing prefix declarations), returning the remainder
after the match. -/
def matchPrefixLineAt (s : PyStr) : Option PyStr :=
  match dropLit "@prefix".toList s with
  | none => none
  | some r1 =>
    let body := r1.takeWhile fun c => c ≠ '\n'
    if body = [] then none
    else
      match r1.drop body.length with
      | '\n' :: r2 => some r2
      | _ => none

/-- Model of `re.sub(r'@prefix[^\n]+\n', '', text)`: delete every
non-overlapping match, scanning left to right. -/
def removePrefixLines : ℕ → PyStr → PyStr
  | 0, s => s
  | _, [] => []
  | fuel + 1, c :: rest =>
    match matchPrefixLineAt (c :: rest) with
    | some after => removePrefixLines fuel after
    | none => c :: removePrefixLines fuel rest

/-- Match of the regex `\n(<http://[^>]+>)` at the current position (the
`re.split` pattern isolating subjects), returning the captured subject
IRI and the remainder after the match. -/
def matchSubjAt : PyStr → Option (PyStr × PyStr)
  | [] => none
  | c :: r =>
    if c = '\n' then
      match dropLit "<http://".toList r with
      | none => none
      | some r2 =>
        let body := r2.takeWhile fun x => x ≠ '>'
        if body = [] then none
        else
          match r2.drop body.length with
          | '>' :: r3 => some ("<http://".toList ++ body ++ ['>'], r3)
          | _ => none
    else none

/-- Model of `re.split(r'\n(<http://[^>]+>)', text)`: the pieces between
matches interleaved with the captured group. -/
def reSplitSubj : ℕ → PyStr → PyStr → List PyStr
  | 0, acc, s => [acc.reverse ++ s]
  | _, acc, [] => [acc.reverse]
  | fuel + 1, acc, c :: rest =>
    match matchSubjAt (c :: rest) with
    | some (cap, after) => acc.reverse :: cap :: reSplitSubj fuel [] after
    | none => reSplitSubj fuel (c :: acc) rest

/-- The `re.split` call of `convert_turtle_to_ntriples`. -/
def splitBySubject (text : PyStr) : List PyStr :=
  reSplitSubj text.length [] text

/-- Model of Python `str.rstrip('.')`. -/
def pyRstripDot (s : PyStr) : PyStr :=
  (s.reverse.dropWhile fun c => c = '.').reverse

/-- Model of Python `str.split(None, 1)`: skip leading whitespace, take
the first word, skip the separating whitespace run, keep the rest
verbatim. -/
def pySplitWs1 (s : PyStr) : List PyStr :=
  let t := s.dropWhile isPySpace
  if t = [] then []
  else
    let w := t.takeWhile fun c => isPySpace c = false
    let r := (t.drop w.length).dropWhile isPySpace
    if r = [] then [w] else [w, r]

/-- Split at the last occurrence of `^^` (Python `value.rsplit('^^', 1)`
for the datatype separator). -/
def splitLastCaretCaret : PyStr → Option (PyStr × PyStr)
  | [] => none
  | [_] => none
  | a :: b :: rest =>
    match splitLastCaretCaret (b :: rest) with
    | some (l, r) => some (a :: l, r)
    | none => if a = '^' ∧ b = '^' then some ([], rest) else none

/-- Embedding of `expand_datatype(value, prefixes)` from
`convert_turtle_to_ntriples.py` (lines 30-36). -/
def expand_datatype (value : PyStr) (prefixes : List (PyStr × PyStr)) :
    PyStr :=
  if pyIn "^^".toList value then
    match splitLastCaretCaret value with
    | some (lit, dtype) => lit ++ "^^".toList ++ expand_uri dtype prefixes
    | none => value
  else value

/-- The per-line body of the conversion loop in
`convert_turtle_to_ntriples` (lines 58-79): strip, skip empty and bare
periods, drop the trailing period, split into predicate and object,
expand both, and emit one N-Triples line for the block's subject. -/
def objExpansion (prefixes : List (PyStr × PyStr)) (o : PyStr) : PyStr :=
  if pyStartsWith o ['"'] = false ∧ pyStartsWith o ['<'] = false then
    expand_uri o prefixes
  else expand_datatype o prefixes

/-- The rest of the per-line body: strip, skip empty lines and bare
periods, drop the trailing period, split into predicate and object, and
emit one N-Triples line for the block's subject. -/
def processLine (prefixes : List (PyStr × PyStr)) (subject line0 : PyStr) :
    Option PyStr :=
  let line1 := pyStrip line0
  if line1 = [] ∨ line1 = ['.'] then none
  else
    let line2 := pyStrip (pyRstripDot line1)
    match pySplitWs1 line2 with
    | [p, o] =>
      some (subject ++ ' ' :: expand_uri p prefixes ++ ' ' ::
        objExpansion prefixes o ++ " .".toList)
    | _ => none

/-- One subject block: strip, split on semicolons, convert each line. -/
def processBlock (prefixes : List (PyStr × PyStr)) (subject block : PyStr) :
    List PyStr :=
  (pySplit ';' (pyStrip block)).filterMap (processLine prefixes subject)

/-- The `for i in range(1, len(subject_blocks), 2)` pairing of captured
subjects with their following block. -/
def pairUp : List PyStr → List (PyStr × PyStr)
  | s :: b :: rest => (s, b) :: pairUp rest
  | _ => []

/-- Embedding of `convert_turtle_to_ntriples(turtle_text)` from
`convert_turtle_to_ntriples.py` (lines 38-81), as the list of emitted
N-Triples lines (the Python function returns them joined with
newlines). -/
def ntriplesLines (text : PyStr) : List PyStr :=
  let prefixes := expand_prefixes text
  let blocks := splitBySubject (removePrefixLines text.length text)
  (pairUp (blocks.drop 1)).flatMap fun sb => processBlock prefixes sb.1 sb.2

/-- The joined result of `convert_turtle_to_ntriples`. -/
def convert_turtle_to_ntriples (text : PyStr) : PyStr :=
  List.intercalate ['\n'] (ntriplesLines text)

/-- Witness for C7: the scenario prefix table resolves `av:Vehicle`. -/
theorem expand_uri_resolves_witness :
    expand_uri ("av".toList ++ ':' :: "Vehicle".toList)
      [("av".toList, "http://zenya.com/ontology/av#".toList)] =
      '<' :: ("http://zenya.com/ontology/av#".toList ++ "Vehicle".toList
        ++ ['>']) :=
  (expand_uri_resolves _ (by decide) (by decide)).2
    "av".toList _ "Vehicle".toList (by decide)

-- Lemmas for the regex scanners on inputs without prefix declarations.

theorem dropLit_append (p t : PyStr) : dropLit p (p ++ t) = some t := by
  induction p with
  | nil => rfl
  | cons c ps ih => simp [dropLit, ih]

theorem dropLit_at_cons {c : Char} (rest : PyStr) (h : c ≠ '@') :
    dropLit "@prefix".toList (c :: rest) = none := by
  have heq : dropLit "@prefix".toList (c :: rest)
      = if c = '@' then dropLit "prefix".toList rest else none := rfl
  rw [heq, if_neg h]

theorem matchPrefixDeclAt_none {c : Char} (rest : PyStr) (h : c ≠ '@') :
    matchPrefixDeclAt (c :: rest) = none := by
  unfold matchPrefixDeclAt
  rw [dropLit_at_cons rest h]

theorem matchPrefixLineAt_none {c : Char} (rest : PyStr) (h : c ≠ '@') :
    matchPrefixLineAt (c :: rest) = none := by
  unfold matchPrefixLineAt
  rw [dropLit_at_cons rest h]

theorem findPrefixDecls_no_at (fuel : ℕ) :
    ∀ (s : PyStr) (m : List (PyStr × PyStr)), '@' ∉ s →
      findPrefixDecls fuel s m = m := by
  induction fuel with
  | zero => intro s m _; cases s <;> rfl
  | succ n ih =>
    intro s m h
    cases s with
    | nil => rfl
    | cons c rest =>
      have hc : c ≠ '@' := fun hcc => h (by simp [hcc])
      have hrest : '@' ∉ rest := fun hr => h (by simp [hr])
      simp [findPrefixDecls, matchPrefixDeclAt_none rest hc, ih rest m hrest]

theorem expand_prefixes_no_at {text : PyStr} (h : '@' ∉ text) :
    expand_prefixes text = [] :=
  findPrefixDecls_no_at text.length text [] h

theorem removePrefixLines_no_at (fuel : ℕ) :
    ∀ s : PyStr, '@' ∉ s → removePrefixLines fuel s = s := by
  induction fuel with
  | zero => intro s _; cases s <;> rfl
  | succ n ih =>
    intro s h
    cases s with
    | nil => rfl
    | cons c rest =>
      have hc : c ≠ '@' := fun hcc => h (by simp [hcc])
      have hrest : '@' ∉ rest := fun hr => h (by simp [hr])
      simp [removePrefixLines, matchPrefixLineAt_none rest hc, ih rest hrest]

/-- Scanner predicate: the text contains no occurrence of a newline
immediately followed by `<`, so the subject regex cannot match. -/
def nlOk : PyStr → Bool
  | [] => true
  | c :: rest =>
    (decide (c ≠ '\n') || decide (rest.head? ≠ some '<')) && nlOk rest

theorem matchSubjAt_none_of {c : Char} {rest : PyStr}
    (h : c ≠ '\n' ∨ rest.head? ≠ some '<') :
    matchSubjAt (c :: rest) = none := by
  rcases h with h | h
  · simp [matchSubjAt, h]
  · unfold matchSubjAt
    rcases hc : decide (c = '\n') with _ | _
    · simp at hc
      simp [hc]
    · simp at hc
      subst hc
      simp only [if_pos rfl]
      cases rest with
      | nil => rfl
      | cons x xs =>
        have hx : x ≠ '<' := by
          intro hxx
          exact h (by simp [hxx])
        have heq : dropLit "<http://".toList (x :: xs)
            = if x = '<' then dropLit "http://".toList xs else none := rfl
        rw [heq, if_neg hx]
        simp

theorem reSplitSubj_no_match (fuel : ℕ) :
    ∀ (acc s : PyStr), nlOk s = true →
      reSplitSubj fuel acc s = [acc.reverse ++ s] := by
  induction fuel with
  | zero => intro acc s _; cases s <;> rfl
  | succ n ih =>
    intro acc s h
    cases s with
    | nil => simp [reSplitSubj]
    | cons c rest =>
      rw [nlOk] at h
      rcases Bool.and_eq_true_iff.mp h with ⟨hhead, htail⟩
      have hdisj : c ≠ '\n' ∨ rest.head? ≠ some '<' := by
        rcases Bool.or_eq_true_iff.mp hhead with hh | hh
        · exact Or.inl (of_decide_eq_true hh)
        · exact Or.inr (of_decide_eq_true hh)
      rw [reSplitSubj, matchSubjAt_none_of hdisj, ih (c :: acc) rest htail]
      simp

theorem nlOk_of_no_nl {a : PyStr} (h : '\n' ∉ a) : nlOk a = true := by
  induction a with
  | nil => rfl
  | cons c rest ih =>
    have hc : c ≠ '\n' := fun hcc => h (by simp [hcc])
    have hrest : '\n' ∉ rest := fun hr => h (by simp [hr])
    simp [nlOk, hc, ih hrest]

theorem nlOk_append {a b : PyStr} (ha : '\n' ∉ a) (hb : nlOk b = true) :
    nlOk (a ++ b) = true := by
  induction a with
  | nil => simpa using hb
  | cons c rest ih =>
    have hc : c ≠ '\n' := fun hcc => ha (by simp [hcc])
    have hrest : '\n' ∉ rest := fun hr => ha (by simp [hr])
    simp [nlOk, hc, ih hrest]

theorem nlOk_cons_nl {b : PyStr} (hh : b.head? ≠ some '<')
    (hb : nlOk b = true) : nlOk ('\n' :: b) = true := by
  simp [nlOk, hh, hb]

-- String-pipeline helper facts used by the converter proof.

theorem takeWhile_append_stop (P : Char → Bool) (a : PyStr) (x : Char)
    (b : PyStr) (ha : ∀ c ∈ a, P c = true) (hx : P x = false) :
    (a ++ x :: b).takeWhile P = a := by
  induction a with
  | nil => simp [List.takeWhile_cons, hx]
  | cons c a1 ih =>
    have hc : P c = true := ha c (by simp)
    have ha1 : ∀ d ∈ a1, P d = true := fun d hd => ha d (by simp [hd])
    simp [List.takeWhile_cons, hc, ih ha1]

theorem dropWhile_append_all (P : Char → Bool) (ws x : PyStr)
    (h : ∀ c ∈ ws, P c = true) :
    (ws ++ x).dropWhile P = x.dropWhile P := by
  induction ws with
  | nil => rfl
  | cons c w1 ih =>
    have hc : P c = true := h c (by simp)
    have hw1 : ∀ d ∈ w1, P d = true := fun d hd => h d (by simp [hd])
    simp [List.dropWhile_cons, hc, ih hw1]

theorem dropWhile_head_false (P : Char → Bool) (c : Char) (xs : PyStr)
    (h : P c = false) : (c :: xs).dropWhile P = c :: xs := by
  simp [List.dropWhile_cons, h]

/-- Boolean check: the first character, if any, is not whitespace. -/
def headNotSpace (x : PyStr) : Bool :=
  match x.head? with
  | some c => !isPySpace c
  | none => true

/-- Boolean check: the last character, if any, is not whitespace. -/
def lastNotSpace (x : PyStr) : Bool :=
  match x.getLast? with
  | some c => !isPySpace c
  | none => true

/-- Boolean check: the last character, if any, is not a period. -/
def lastNotDot (x : PyStr) : Bool :=
  match x.getLast? with
  | some c => c ≠ '.'
  | none => true

theorem pyStrip_sandwich (ws1 y ws2 : PyStr)
    (h1 : ∀ c ∈ ws1, isPySpace c = true) (h2 : ∀ c ∈ ws2, isPySpace c = true)
    (hy0 : y ≠ []) (hyh : headNotSpace y = true)
    (hyl : lastNotSpace y = true) :
    pyStrip (ws1 ++ y ++ ws2) = y := by
  unfold pyStrip
  rw [List.append_assoc, dropWhile_append_all isPySpace ws1 (y ++ ws2) h1]
  cases y with
  | nil => exact absurd rfl hy0
  | cons c ys =>
    have hc : isPySpace c = false := by
      unfold headNotSpace at hyh
      simp only [List.head?_cons] at hyh
      simpa using hyh
    rw [List.cons_append, dropWhile_head_false isPySpace c (ys ++ ws2) hc]
    rcases hyr : (c :: ys).reverse with _ | ⟨e, t⟩
    · exact absurd (List.reverse_eq_nil_iff.mp hyr) (by simp)
    · have hlast : (c :: ys).getLast? = some e := by
        rw [← List.head?_reverse, hyr]
        rfl
      have he : isPySpace e = false := by
        unfold lastNotSpace at hyl
        rw [hlast] at hyl
        simpa using hyl
      rw [← List.cons_append, List.reverse_append, hyr,
        dropWhile_append_all isPySpace ws2.reverse (e :: t)
          (fun d hd => h2 d (by simpa using hd)),
        dropWhile_head_false isPySpace e t he, ← hyr, List.reverse_reverse]

theorem pyRstripDot_eq_self (x : PyStr) (h : lastNotDot x = true) :
    pyRstripDot x = x := by
  unfold pyRstripDot
  rcases hxr : x.reverse with _ | ⟨e, t⟩
  · simp [List.reverse_eq_nil_iff.mp hxr]
  · have hlast : x.getLast? = some e := by
      rw [← List.head?_reverse, hxr]
      rfl
    have he : e ≠ '.' := by
      unfold lastNotDot at h
      rw [hlast] at h
      simpa using h
    rw [dropWhile_head_false _ e t (by simpa using he), ← hxr,
      List.reverse_reverse]

theorem pyRstripDot_space_dot (y : PyStr) :
    pyRstripDot (y ++ [' ', '.']) = y ++ [' '] := by
  unfold pyRstripDot
  have hrev : (y ++ [' ', '.']).reverse = '.' :: ' ' :: y.reverse := by
    simp
  rw [hrev]
  have hstep : ('.' :: ' ' :: y.reverse).dropWhile (fun c => c = '.')
      = ' ' :: y.reverse := by
    simp [List.dropWhile_cons]
  rw [hstep]
  simp

theorem pySplitWs1_pair (p o : PyStr) (hp0 : p ≠ [])
    (hpc : ∀ c ∈ p, isPySpace c = false) (ho0 : o ≠ [])
    (hoh : headNotSpace o = true) :
    pySplitWs1 (p ++ ' ' :: o) = [p, o] := by
  unfold pySplitWs1
  cases p with
  | nil => exact absurd rfl hp0
  | cons c p1 =>
    have hc : isPySpace c = false := hpc c (by simp)
    rw [List.cons_append, dropWhile_head_false isPySpace c (p1 ++ ' ' :: o) hc,
      ← List.cons_append]
    have ht0 : (c :: p1) ++ ' ' :: o ≠ [] := by simp
    rw [if_neg ht0]
    have hw : ((c :: p1) ++ ' ' :: o).takeWhile
        (fun x => isPySpace x = false) = c :: p1 := by
      refine takeWhile_append_stop _ _ _ _ ?_ ?_
      · intro d hd
        simp [hpc d hd]
      · decide
    have hdrop2 : List.drop (c :: p1).length ((c :: p1) ++ ' ' :: o)
        = ' ' :: o := List.drop_left _ _
    have hdrop : (' ' :: o).dropWhile isPySpace = o := by
      rw [List.dropWhile_cons]
      have : isPySpace ' ' = true := by decide
      rw [this]
      simp only [if_true]
      cases o with
      | nil => exact absurd rfl ho0
      | cons d o1 =>
        have hd : isPySpace d = false := by
          unfold headNotSpace at hoh
          simp only [List.head?_cons] at hoh
          simpa using hoh
        exact dropWhile_head_false isPySpace d o1 hd
    simp only [hw, hdrop2, hdrop, if_neg ho0]

theorem pySplit_no_sep (sep : Char) (a : PyStr) (h : sep ∉ a) :
    pySplit sep a = [a] := by
  induction a with
  | nil => rfl
  | cons c rest ih =>
    have hc : c ≠ sep := fun hcc => h (by simp [hcc])
    have hrest : sep ∉ rest := fun hr => h (by simp [hr])
    simp [pySplit, hc, ih hrest]

theorem pySplit_append_sep (sep : Char) (a b : PyStr) (h : sep ∉ a) :
    pySplit sep (a ++ sep :: b) = a :: pySplit sep b := by
  induction a with
  | nil => simp [pySplit]
  | cons c rest ih =>
    have hc : c ≠ sep := fun hcc => h (by simp [hcc])
    have hrest : sep ∉ rest := fun hr => h (by simp [hr])
    rw [List.cons_append, pySplit, if_neg hc, ih hrest]

-- Construction of well-formed single-subject Turtle inputs for C8.

/-- One predicate-object pair as the script's scenario data writes it:
four-space indent, predicate, space, object. -/
def mkPairLine (po : PyStr × PyStr) : PyStr :=
  ' ' :: ' ' :: ' ' :: ' ' :: (po.1 ++ ' ' :: po.2)

/-- The body of a subject block: pairs separated by ` ;` + newline,
terminated by ` .`. -/
def mkBody : List (PyStr × PyStr) → PyStr
  | [] => []
  | [po] => mkPairLine po ++ [' ', '.']
  | po :: rest => mkPairLine po ++ ' ' :: ';' :: '\n' :: mkBody rest

/-- The suffix of a block body after the first pair's text. -/
def bodyTail : List (PyStr × PyStr) → PyStr
  | [] => [' ', '.']
  | po :: rest => ' ' :: ';' :: '\n' :: (mkPairLine po ++ bodyTail rest)

/-- A full `<http://...>` subject IRI. -/
def mkSubjIri (sb : PyStr) : PyStr := "<http://".toList ++ sb ++ ['>']

/-- A Turtle input with one subject whose predicate-object pairs are
separated by semicolons and terminated by a period. -/
def mkTurtleInput (sb : PyStr) (pairs : List (PyStr × PyStr)) : PyStr :=
  '\n' :: (mkSubjIri sb ++ '\n' :: mkBody pairs)

/-- Well-formedness of a predicate token: nonempty, no whitespace, and
free of the separator characters the converter keys on. -/
abbrev GoodTok (p : PyStr) : Prop :=
  p ≠ [] ∧ ∀ c ∈ p, isPySpace c = false ∧ c ≠ ';' ∧ c ≠ '\n' ∧ c ≠ '@'

/-- Well-formedness of an object token: nonempty, free of separator
characters, no whitespace at either end, and not ending in a period. -/
abbrev GoodObj (o : PyStr) : Prop :=
  o ≠ [] ∧ (∀ c ∈ o, c ≠ ';' ∧ c ≠ '\n' ∧ c ≠ '@')
  ∧ headNotSpace o = true ∧ lastNotSpace o = true ∧ lastNotDot o = true

theorem getLast?_append_right (a b : PyStr) (hb : b ≠ []) :
    (a ++ b).getLast? = b.getLast? := by
  rw [← List.head?_reverse, List.reverse_append, ← List.head?_reverse]
  rcases hbr : b.reverse with _ | ⟨e, t⟩
  · exact absurd (List.reverse_eq_nil_iff.mp hbr) hb
  · rfl

theorem lastNotSpace_append (a o : PyStr) (ho : o ≠ []) :
    lastNotSpace (a ++ o) = lastNotSpace o := by
  unfold lastNotSpace
  rw [getLast?_append_right a o ho]

theorem lastNotDot_append (a o : PyStr) (ho : o ≠ []) :
    lastNotDot (a ++ o) = lastNotDot o := by
  unfold lastNotDot
  rw [getLast?_append_right a o ho]

theorem headNotSpace_cons (c : Char) (l : PyStr) :
    headNotSpace (c :: l) = !isPySpace c := rfl

theorem pyStrip_eq_self (y : PyStr) (hy0 : y ≠ [])
    (hyh : headNotSpace y = true) (hyl : lastNotSpace y = true) :
    pyStrip y = y := by
  have := pyStrip_sandwich [] y [] (by simp) (by simp) hy0 hyh hyl
  simpa using this

theorem processLine_mid (pf : List (PyStr × PyStr)) (subj ws p o : PyStr)
    (hws : ∀ c ∈ ws, isPySpace c = true) (hp : GoodTok p) (ho : GoodObj o) :
    processLine pf subj (ws ++ (p ++ ' ' :: o) ++ [' ']) =
      some (subj ++ ' ' :: expand_uri p pf ++ ' ' ::
        objExpansion pf o ++ " .".toList) := by
  obtain ⟨hp0, hpc⟩ := hp
  obtain ⟨ho0, _, hoh, hol, hod⟩ := ho
  have hyo : p ++ ' ' :: o = (p ++ [' ']) ++ o := by simp
  have hy0 : p ++ ' ' :: o ≠ [] := by
    cases p <;> simp
  have hyh : headNotSpace (p ++ ' ' :: o) = true := by
    cases p with
    | nil => exact absurd rfl hp0
    | cons c p1 =>
      rw [List.cons_append, headNotSpace_cons]
      simp [(hpc c (by simp)).1]
  have hyl : lastNotSpace (p ++ ' ' :: o) = true := by
    rw [hyo, lastNotSpace_append _ o ho0]
    exact hol
  have hyd : lastNotDot (p ++ ' ' :: o) = true := by
    rw [hyo, lastNotDot_append _ o ho0]
    exact hod
  have hstrip : pyStrip (ws ++ (p ++ ' ' :: o) ++ [' '])
      = p ++ ' ' :: o :=
    pyStrip_sandwich ws (p ++ ' ' :: o) [' '] hws (by decide) hy0 hyh hyl
  have hnotdot : p ++ ' ' :: o ≠ ['.'] := by
    cases p with
    | nil => exact absurd rfl hp0
    | cons c p1 =>
      intro h
      simp at h
  unfold processLine
  rw [hstrip, if_neg (not_or.mpr ⟨hy0, hnotdot⟩), pyRstripDot_eq_self _ hyd,
    pyStrip_eq_self _ hy0 hyh hyl]
  simp only [pySplitWs1_pair p o hp0 (fun c hc => (hpc c hc).1) ho0 hoh]

theorem processLine_dotted (pf : List (PyStr × PyStr)) (subj ws p o : PyStr)
    (hws : ∀ c ∈ ws, isPySpace c = true) (hp : GoodTok p) (ho : GoodObj o) :
    processLine pf subj (ws ++ (p ++ ' ' :: o) ++ [' ', '.']) =
      some (subj ++ ' ' :: expand_uri p pf ++ ' ' ::
        objExpansion pf o ++ " .".toList) := by
  obtain ⟨hp0, hpc⟩ := hp
  obtain ⟨ho0, _, hoh, hol, hod⟩ := ho
  have hyo : p ++ ' ' :: o = (p ++ [' ']) ++ o := by simp
  have hy0 : p ++ ' ' :: o ≠ [] := by
    cases p <;> simp
  have hyh : headNotSpace (p ++ ' ' :: o) = true := by
    cases p with
    | nil => exact absurd rfl hp0
    | cons c p1 =>
      rw [List.cons_append, headNotSpace_cons]
      simp [(hpc c (by simp)).1]
  have hyl : lastNotSpace (p ++ ' ' :: o) = true := by
    rw [hyo, lastNotSpace_append _ o ho0]
    exact hol
  have hy20 : (p ++ ' ' :: o) ++ [' ', '.'] ≠ [] := by simp
  have hy2h : headNotSpace ((p ++ ' ' :: o) ++ [' ', '.']) = true := by
    cases p with
    | nil => exact absurd rfl hp0
    | cons c p1 =>
      rw [List.cons_append, List.cons_append, headNotSpace_cons]
      simp [(hpc c (by simp)).1]
  have hy2l : lastNotSpace ((p ++ ' ' :: o) ++ [' ', '.']) = true := by
    rw [lastNotSpace_append _ _ (by simp)]
    decide
  have hstrip : pyStrip (ws ++ ((p ++ ' ' :: o) ++ [' ', '.']) ++ [])
      = (p ++ ' ' :: o) ++ [' ', '.'] :=
    pyStrip_sandwich ws ((p ++ ' ' :: o) ++ [' ', '.']) [] hws (by simp)
      hy20 hy2h hy2l
  have harg : ws ++ (p ++ ' ' :: o) ++ [' ', '.']
      = ws ++ ((p ++ ' ' :: o) ++ [' ', '.']) ++ [] := by simp
  have hnotdot : (p ++ ' ' :: o) ++ [' ', '.'] ≠ ['.'] := by
    cases p with
    | nil => exact absurd rfl hp0
    | cons c p1 =>
      intro h
      simp at h
  have hstrip3 : pyStrip (p ++ ' ' :: (o ++ [' '])) = p ++ ' ' :: o := by
    have h0 := pyStrip_sandwich [] (p ++ ' ' :: o) [' '] (by simp) (by decide)
      hy0 hyh hyl
    simpa using h0
  unfold processLine
  rw [harg, hstrip, if_neg (not_or.mpr ⟨hy20, hnotdot⟩),
    pyRstripDot_space_dot (p ++ ' ' :: o)]
  simp only [List.append_assoc, List.cons_append, hstrip3,
    pySplitWs1_pair p o hp0 (fun c hc => (hpc c hc).1) ho0 hoh]

-- Structure of the constructed input.

theorem mkBody_eq (po : PyStr × PyStr) (rest : List (PyStr × PyStr)) :
    mkBody (po :: rest) = mkPairLine po ++ bodyTail rest := by
  induction rest generalizing po with
  | nil => rfl
  | cons po2 rest2 ih =>
    show mkPairLine po ++ ' ' :: ';' :: '\n' :: mkBody (po2 :: rest2)
      = mkPairLine po ++ ' ' :: ';' :: '\n' :: (mkPairLine po2 ++ bodyTail rest2)
    rw [ih po2]

theorem bodyTail_ne_nil (rest : List (PyStr × PyStr)) : bodyTail rest ≠ [] := by
  cases rest <;> simp [bodyTail]

theorem bodyTail_getLast (rest : List (PyStr × PyStr)) :
    (bodyTail rest).getLast? = some '.' := by
  induction rest with
  | nil => rfl
  | cons po rest2 ih =>
    show (' ' :: ';' :: '\n' :: (mkPairLine po ++ bodyTail rest2)).getLast?
      = some '.'
    have h1 : ' ' :: ';' :: '\n' :: (mkPairLine po ++ bodyTail rest2)
        = ([' ', ';', '\n'] ++ mkPairLine po) ++ bodyTail rest2 := by simp
    rw [h1, getLast?_append_right _ _ (bodyTail_ne_nil rest2), ih]

theorem mem_mkPairLine {c : Char} {po : PyStr × PyStr}
    (h : c ∈ mkPairLine po) :
    c = ' ' ∨ c ∈ po.1 ∨ c ∈ po.2 := by
  unfold mkPairLine at h
  simp only [List.mem_cons, List.mem_append] at h
  tauto

theorem mem_bodyTail {c : Char} :
    ∀ {rest : List (PyStr × PyStr)}, c ∈ bodyTail rest →
      c = ' ' ∨ c = '.' ∨ c = ';' ∨ c = '\n'
      ∨ ∃ po ∈ rest, c ∈ po.1 ∨ c ∈ po.2 := by
  intro rest
  induction rest with
  | nil =>
    intro h
    simp [bodyTail] at h
    tauto
  | cons po rest2 ih =>
    intro h
    simp only [bodyTail, List.mem_cons, List.mem_append] at h
    rcases h with h | h | h | h
    · tauto
    · tauto
    · tauto
    · rcases h with h | h
      · rcases mem_mkPairLine h with h | h | h
        · tauto
        · exact Or.inr (Or.inr (Or.inr (Or.inr ⟨po, by simp, Or.inl h⟩)))
        · exact Or.inr (Or.inr (Or.inr (Or.inr ⟨po, by simp, Or.inr h⟩)))
      · rcases ih h with h | h | h | h | ⟨po2, hpo2, hc⟩
        · tauto
        · tauto
        · tauto
        · tauto
        · exact Or.inr (Or.inr (Or.inr (Or.inr ⟨po2, by simp [hpo2], hc⟩)))

theorem no_nl_mkPairLine {po : PyStr × PyStr} (hp : GoodTok po.1)
    (ho : GoodObj po.2) : '\n' ∉ mkPairLine po := by
  intro h
  rcases mem_mkPairLine h with h | h | h
  · exact absurd h (by decide)
  · exact absurd rfl (hp.2 '\n' h).2.2.1
  · exact absurd rfl ((ho.2.1 '\n' h).2.1)

theorem mkBody_head (po : PyStr × PyStr) (rest : List (PyStr × PyStr)) :
    (mkBody (po :: rest)).head? = some ' ' := by
  cases rest <;> rfl

theorem nlOk_mkBody :
    ∀ (pairs : List (PyStr × PyStr)),
      (∀ po ∈ pairs, GoodTok po.1 ∧ GoodObj po.2) →
      nlOk (mkBody pairs) = true := by
  intro pairs
  induction pairs with
  | nil => intro _; rfl
  | cons po rest ih =>
    intro hgood
    have hpo := hgood po (by simp)
    have hrest : ∀ q ∈ rest, GoodTok q.1 ∧ GoodObj q.2 :=
      fun q hq => hgood q (by simp [hq])
    cases rest with
    | nil =>
      have hnl : '\n' ∉ mkBody [po] := by
        intro h
        show False
        rcases List.mem_append.mp h with h | h
        · exact no_nl_mkPairLine hpo.1 hpo.2 h
        · simp at h
      exact nlOk_of_no_nl hnl
    | cons po2 rest2 =>
      have hshape : mkBody (po :: po2 :: rest2)
          = (mkPairLine po ++ [' ', ';']) ++ '\n' :: mkBody (po2 :: rest2) := by
        show mkPairLine po ++ ' ' :: ';' :: '\n' :: mkBody (po2 :: rest2)
          = (mkPairLine po ++ [' ', ';']) ++ '\n' :: mkBody (po2 :: rest2)
        simp
      rw [hshape]
      refine nlOk_append ?_ ?_
      · intro h
        rcases List.mem_append.mp h with h | h
        · exact no_nl_mkPairLine hpo.1 hpo.2 h
        · simp at h
      · refine nlOk_cons_nl ?_ (ih hrest)
        rw [mkBody_head]
        simp

theorem no_at_mkTurtleInput {sb : PyStr} {pairs : List (PyStr × PyStr)}
    (hsb : ∀ c ∈ sb, c ≠ '>' ∧ c ≠ '\n' ∧ c ≠ '@')
    (hgood : ∀ po ∈ pairs, GoodTok po.1 ∧ GoodObj po.2) :
    '@' ∉ mkTurtleInput sb pairs := by
  intro h
  unfold mkTurtleInput at h
  rcases List.mem_cons.mp h with h | h
  · exact absurd h (by decide)
  rcases List.mem_append.mp h with h | h
  · unfold mkSubjIri at h
    rcases List.mem_append.mp h with h | h
    · rcases List.mem_append.mp h with h | h
      · revert h
        decide
      · exact absurd rfl (hsb '@' h).2.2
    · revert h
      decide
  · rcases List.mem_cons.mp h with h | h
    · exact absurd h (by decide)
    · cases pairs with
      | nil => simp [mkBody] at h
      | cons po rest =>
        rw [mkBody_eq] at h
        rcases List.mem_append.mp h with h | h
        · have hpo := hgood po (by simp)
          rcases mem_mkPairLine h with h | h | h
          · exact absurd h (by decide)
          · exact absurd rfl (hpo.1.2 '@' h).2.2.2
          · exact absurd rfl ((hpo.2.2.1 '@' h)).2.2
        · rcases mem_bodyTail h with h | h | h | h | ⟨po2, hpo2, hc⟩
          · exact absurd h (by decide)
          · exact absurd h (by decide)
          · exact absurd h (by decide)
          · exact absurd h (by decide)
          · have hpo2g := hgood po2 (by simp [hpo2])
            rcases hc with hc | hc
            · exact absurd rfl (hpo2g.1.2 '@' hc).2.2.2
            · exact absurd rfl ((hpo2g.2.2.1 '@' hc)).2.2

theorem splitBySubject_mkInput (sb : PyStr) (pairs : List (PyStr × PyStr))
    (hsb0 : sb ≠ []) (hsb : ∀ c ∈ sb, c ≠ '>' ∧ c ≠ '\n' ∧ c ≠ '@')
    (hpairs : pairs ≠ [])
    (hgood : ∀ po ∈ pairs, GoodTok po.1 ∧ GoodObj po.2) :
    splitBySubject (mkTurtleInput sb pairs)
      = [[], mkSubjIri sb, '\n' :: mkBody pairs] := by
  have hm : matchSubjAt ('\n' :: (mkSubjIri sb ++ '\n' :: mkBody pairs))
      = some (mkSubjIri sb, '\n' :: mkBody pairs) := by
    have hu : mkSubjIri sb ++ '\n' :: mkBody pairs
        = "<http://".toList ++ (sb ++ '>' :: '\n' :: mkBody pairs) := by
      unfold mkSubjIri
      simp
    have htake : (sb ++ '>' :: '\n' :: mkBody pairs).takeWhile
        (fun x => decide (x ≠ '>')) = sb :=
      takeWhile_append_stop _ sb '>' _
        (fun c hc => by simp [(hsb c hc).1]) (by decide)
    have heq : ∀ r : PyStr, matchSubjAt ('\n' :: r)
        = match dropLit "<http://".toList r with
          | none => none
          | some r2 =>
            let body := r2.takeWhile fun x => decide (x ≠ '>')
            if body = [] then none
            else
              match r2.drop body.length with
              | '>' :: r3 => some ("<http://".toList ++ body ++ ['>'], r3)
              | _ => none := by
      intro r
      simp [matchSubjAt]
    rw [heq, hu, dropLit_append]
    simp only [htake, if_neg hsb0, List.drop_left]
    unfold mkSubjIri
    rfl
  have hnl : nlOk ('\n' :: mkBody pairs) = true := by
    refine nlOk_cons_nl ?_ (nlOk_mkBody pairs hgood)
    cases pairs with
    | nil => exact absurd rfl hpairs
    | cons po rest =>
      rw [mkBody_head]
      simp
  have hlen : (mkTurtleInput sb pairs).length
      = (mkSubjIri sb ++ '\n' :: mkBody pairs).length + 1 := by
    unfold mkTurtleInput
    simp
  unfold splitBySubject
  rw [hlen]
  show reSplitSubj ((mkSubjIri sb ++ '\n' :: mkBody pairs).length + 1) []
      ('\n' :: (mkSubjIri sb ++ '\n' :: mkBody pairs))
    = [[], mkSubjIri sb, '\n' :: mkBody pairs]
  rw [reSplitSubj, hm]
  show ([] : PyStr).reverse :: mkSubjIri sb ::
      reSplitSubj (mkSubjIri sb ++ '\n' :: mkBody pairs).length []
        ('\n' :: mkBody pairs)
    = [[], mkSubjIri sb, '\n' :: mkBody pairs]
  rw [reSplitSubj_no_match _ [] ('\n' :: mkBody pairs) hnl]
  simp

theorem pyStrip_block (po : PyStr × PyStr) (rest : List (PyStr × PyStr))
    (hp : GoodTok po.1) (_ho : GoodObj po.2) :
    pyStrip ('\n' :: mkBody (po :: rest))
      = (po.1 ++ ' ' :: po.2) ++ bodyTail rest := by
  have hshape : '\n' :: mkBody (po :: rest)
      = ['\n', ' ', ' ', ' ', ' ']
        ++ ((po.1 ++ ' ' :: po.2) ++ bodyTail rest) ++ [] := by
    rw [mkBody_eq]
    unfold mkPairLine
    simp
  rw [hshape]
  refine pyStrip_sandwich _ _ _ (by decide) (by simp) ?_ ?_ ?_
  · intro h
    exact bodyTail_ne_nil rest (List.append_eq_nil.mp h).2
  · rcases hpo1 : po.1 with _ | ⟨c, p1⟩
    · exact absurd hpo1 hp.1
    · have hc : isPySpace c = false := (hp.2 c (by rw [hpo1]; simp)).1
      rw [List.cons_append, List.cons_append, headNotSpace_cons]
      simp [hc]
  · rw [lastNotSpace_append _ _ (bodyTail_ne_nil rest)]
    unfold lastNotSpace
    rw [bodyTail_getLast]
    decide

theorem count_core (pf : List (PyStr × PyStr)) (subj : PyStr) :
    ∀ (rest : List (PyStr × PyStr)) (p o ws : PyStr),
      GoodTok p → GoodObj o →
      (∀ q ∈ rest, GoodTok q.1 ∧ GoodObj q.2) →
      (∀ c ∈ ws, isPySpace c = true) →
      ((pySplit ';' (ws ++ (p ++ ' ' :: o) ++ bodyTail rest)).filterMap
          (processLine pf subj)).length = rest.length + 1
      ∧ ∀ line ∈ (pySplit ';'
            (ws ++ (p ++ ' ' :: o) ++ bodyTail rest)).filterMap
          (processLine pf subj),
        pyStartsWith line (subj ++ [' ']) = true := by
  intro rest
  induction rest with
  | nil =>
    intro p o ws hp ho _ hws
    have hbt : bodyTail ([] : List (PyStr × PyStr)) = [' ', '.'] := rfl
    have hno : ';' ∉ ws ++ (p ++ ' ' :: o) ++ [' ', '.'] := by
      intro h
      rcases List.mem_append.mp h with h | h
      · rcases List.mem_append.mp h with h | h
        · exact absurd (hws ';' h) (by decide)
        · rcases List.mem_append.mp h with h | h
          · exact absurd rfl (hp.2 ';' h).2.1
          · rcases List.mem_cons.mp h with h | h
            · exact absurd h (by decide)
            · exact absurd rfl (ho.2.1 ';' h).1
      · revert h
        decide
    rw [hbt, pySplit_no_sep ';' _ hno]
    have hline := processLine_dotted pf subj ws p o hws hp ho
    constructor
    · rw [List.filterMap_cons, hline]
      rfl
    · intro line
      rw [List.filterMap_cons, hline]
      intro hl
      rcases List.mem_cons.mp hl with rfl | hl
      · have : subj ++ ' ' :: expand_uri p pf ++ ' ' ::
            objExpansion pf o ++ " .".toList
            = (subj ++ [' ']) ++ (expand_uri p pf ++ ' ' ::
              objExpansion pf o ++ " .".toList) := by simp
        rw [this]
        exact pyStartsWith_append _ _
      · simp at hl
  | cons po2 rest2 ih =>
    intro p o ws hp ho hrest hws
    have hpo2 := hrest po2 (by simp)
    have hrest2 : ∀ q ∈ rest2, GoodTok q.1 ∧ GoodObj q.2 :=
      fun q hq => hrest q (by simp [hq])
    have hshape : ws ++ (p ++ ' ' :: o) ++ bodyTail (po2 :: rest2)
        = (ws ++ (p ++ ' ' :: o) ++ [' ']) ++ ';' ::
          (['\n', ' ', ' ', ' ', ' ']
            ++ (po2.1 ++ ' ' :: po2.2) ++ bodyTail rest2) := by
      show ws ++ (p ++ ' ' :: o)
          ++ (' ' :: ';' :: '\n' :: (mkPairLine po2 ++ bodyTail rest2)) = _
      unfold mkPairLine
      simp
    have hno1 : ';' ∉ ws ++ (p ++ ' ' :: o) ++ [' '] := by
      intro h
      rcases List.mem_append.mp h with h | h
      · rcases List.mem_append.mp h with h | h
        · exact absurd (hws ';' h) (by decide)
        · rcases List.mem_append.mp h with h | h
          · exact absurd rfl (hp.2 ';' h).2.1
          · rcases List.mem_cons.mp h with h | h
            · exact absurd h (by decide)
            · exact absurd rfl (ho.2.1 ';' h).1
      · revert h
        decide
    rw [hshape, pySplit_append_sep ';' _ _ hno1]
    have hline := processLine_mid pf subj ws p o hws hp ho
    obtain ⟨ihlen, ihmem⟩ := ih po2.1 po2.2 ['\n', ' ', ' ', ' ', ' ']
      hpo2.1 hpo2.2 hrest2 (by decide)
    constructor
    · rw [List.filterMap_cons, hline]
      show (_ :: _).length = rest2.length + 1 + 1
      rw [List.length_cons, ihlen]
    · intro line
      rw [List.filterMap_cons, hline]
      intro hl
      rcases List.mem_cons.mp hl with rfl | hl
      · have : subj ++ ' ' :: expand_uri p pf ++ ' ' ::
            objExpansion pf o ++ " .".toList
            = (subj ++ [' ']) ++ (expand_uri p pf ++ ' ' ::
              objExpansion pf o ++ " .".toList) := by simp
        rw [this]
        exact pyStartsWith_append _ _
      · exact ihmem line hl

/-- C8: semicolon-separated predicate-object lists share their subject.
For every Turtle input built from a full `<http://...>` subject IRI
followed by k well-formed predicate-object pairs separated by semicolons
and terminated by a period, the conversion emits exactly k N-Triples
lines, and every emitted line begins with that subject IRI followed by a
space (so each line carries the shared subject and one pair). -/
theorem convert_semicolon_shares_subject (sb : PyStr)
    (pairs : List (PyStr × PyStr)) (hsb0 : sb ≠ [])
    (hsb : ∀ c ∈ sb, c ≠ '>' ∧ c ≠ '\n' ∧ c ≠ '@')
    (hpairs : pairs ≠ [])
    (hgood : ∀ po ∈ pairs, GoodTok po.1 ∧ GoodObj po.2) :
    (ntriplesLines (mkTurtleInput sb pairs)).length = pairs.length
    ∧ ∀ line ∈ ntriplesLines (mkTurtleInput sb pairs),
        pyStartsWith line (mkSubjIri sb ++ [' ']) = true := by
  have hat : '@' ∉ mkTurtleInput sb pairs := no_at_mkTurtleInput hsb hgood
  have hlines : ntriplesLines (mkTurtleInput sb pairs)
      = (pySplit ';' (pyStrip ('\n' :: mkBody pairs))).filterMap
        (processLine [] (mkSubjIri sb)) := by
    unfold ntriplesLines
    rw [expand_prefixes_no_at hat, removePrefixLines_no_at _ _ hat,
      splitBySubject_mkInput sb pairs hsb0 hsb hpairs hgood]
    simp [pairUp, processBlock]
  cases pairs with
  | nil => exact absurd rfl hpairs
  | cons po rest =>
    have hpo := hgood po (by simp)
    have hrest : ∀ q ∈ rest, GoodTok q.1 ∧ GoodObj q.2 :=
      fun q hq => hgood q (by simp [hq])
    rw [hlines, pyStrip_block po rest hpo.1 hpo.2]
    have hcore := count_core [] (mkSubjIri sb) rest po.1 po.2 []
      hpo.1 hpo.2 hrest (by simp)
    simp only [List.nil_append] at hcore
    refine ⟨?_, hcore.2⟩
    rw [hcore.1]
    rfl

/-- Witness for C8: a two-pair input in the scenario format yields two
lines, both starting with the subject IRI. -/
theorem convert_semicolon_shares_subject_witness :
    (ntriplesLines (mkTurtleInput "zenya.com/vehicle/ego".toList
      [("a".toList, "av:Vehicle".toList),
       ("av:hasVelocity".toList, "22.2^^xsd:float".toList)])).length = 2 :=
  (convert_semicolon_shares_subject "zenya.com/vehicle/ego".toList
    [("a".toList, "av:Vehicle".toList),
     ("av:hasVelocity".toList, "22.2^^xsd:float".toList)]
    (by decide) (by decide) (by decide) (by decide)).1
